import Mathlib

/-!
# Verification development for the world-server connection core and group manager

Sources embedded here:

* `src/Core/src/server/game/Server/WorldSocket.h` : the packed `ClientPktHeader`
  union with its two static validators.
* `src/Core/src/server/game/Groups/GroupMgr.cpp` : the storage-id pool of `GroupMgr`.

Machine integers are natural numbers; a `uint32` value is a natural number below
`2 ^ 32` and every place where the C++ code can wrap is reduced explicitly.
-/

namespace WorldSocket

/-! ## `ClientPktHeader` (WorldSocket.h, lines 49-69) -/

/-- The integer types used by the fields of `ClientPktHeader`. -/
inductive CType where
  | uint16
  | uint32
  deriving DecidableEq, Repr

/-- Width in bytes of a field type (`sizeof`). -/
def CType.sizeof : CType → Nat
  | .uint16 => 2
  | .uint32 => 4

/-- Natural alignment of a field type (`alignof`), equal to its width for the
fixed-width unsigned integers. -/
def CType.alignof : CType → Nat
  | .uint16 => 2
  | .uint32 => 4

/-- Names of the fields declared in both members of the union. -/
inductive FieldName where
  | Size
  | Command
  deriving DecidableEq, Repr

/-- A declared field: its name and its type, in declaration order. -/
structure Field where
  name : FieldName
  ty : CType
  deriving DecidableEq, Repr

/-- The two members of the union `ClientPktHeader`. -/
inductive Shape where
  | Setup
  | Normal
  deriving DecidableEq, Repr

/-- Field lists of the two anonymous structs, read off the declaration:
`Setup` is `uint16 Size; uint16 Command;` and `Normal` is `uint32 Size; uint16 Command;`. -/
def Shape.fields : Shape → List Field
  | .Setup => [⟨.Size, .uint16⟩, ⟨.Command, .uint16⟩]
  | .Normal => [⟨.Size, .uint32⟩, ⟨.Command, .uint16⟩]

/-- The packing in force at the declaration: `#pragma pack(push, 1)`. -/
def packValue : Nat := 1

/-- Round `n` up to the next multiple of `a`. -/
def alignUp (a n : Nat) : Nat := (n + a - 1) / a * a

/-- Alignment of a member under `#pragma pack(p)`: the smaller of `p` and the
natural alignment. -/
def fieldAlign (p : Nat) (f : Field) : Nat := min p f.ty.alignof

/-- Offsets assigned to the fields of a struct laid out from byte `off` under
packing `p`, together with the first byte past the last field. -/
def layoutFrom (p : Nat) : List Field → Nat → List (FieldName × Nat) × Nat
  | [], off => ([], off)
  | f :: fs, off =>
    let o := alignUp (fieldAlign p f) off
    let r := layoutFrom p fs (o + f.ty.sizeof)
    ((f.name, o) :: r.1, r.2)

/-- Alignment of a struct: the largest member alignment (at least one). -/
def structAlign (p : Nat) (fs : List Field) : Nat :=
  fs.foldl (fun a f => max a (fieldAlign p f)) 1

/-- Result of `sizeof` for a struct under packing `p`: the end of the last field
rounded up to the struct alignment. -/
def structSize (p : Nat) (fs : List Field) : Nat :=
  alignUp (structAlign p fs) (layoutFrom p fs 0).2

/-- Offset of a named field inside a struct under packing `p`. -/
def fieldOffset (p : Nat) (fs : List Field) (n : FieldName) : Option Nat :=
  ((layoutFrom p fs 0).1.find? (fun e => e.1 == n)).map Prod.snd

/-- Result of `sizeof` for a union: every member starts at offset zero, so the
size is the largest member size rounded up to the largest member alignment. -/
def unionSize (p : Nat) (members : List (List Field)) : Nat :=
  alignUp (members.foldl (fun a fs => max a (structAlign p fs)) 1)
    (members.foldl (fun a fs => max a (structSize p fs)) 0)

/-- Bytes occupied by one header shape as declared (packing 1). -/
def Shape.size (s : Shape) : Nat := structSize packValue s.fields

/-- Result of `sizeof(ClientPktHeader)`. -/
def sizeofClientPktHeader : Nat :=
  unionSize packValue [Shape.Setup.fields, Shape.Normal.fields]

/-- Offset of a field in a shape as declared; zero for a name the shape lacks
(both shapes declare both names). -/
def Shape.offset (s : Shape) (n : FieldName) : Nat :=
  (fieldOffset packValue s.fields n).getD 0

/-- Type of a field in a shape as declared. -/
def Shape.fieldType (s : Shape) (n : FieldName) : CType :=
  ((s.fields.find? (fun f => f.name == n)).map Field.ty).getD .uint16

/-- Body of `ClientPktHeader::IsValidSize(uint32 size)`: `return size < 10240;`. -/
def IsValidSize (size : Nat) : Bool := decide (size < 10240)

/-- Body of `ClientPktHeader::IsValidOpcode(uint32 opcode)`:
`return opcode < NUM_OPCODE_HANDLERS;`. The constant is declared outside the
available sources and is a parameter here. -/
def IsValidOpcode (NUM_OPCODE_HANDLERS : Nat) (opcode : Nat) : Bool :=
  decide (opcode < NUM_OPCODE_HANDLERS)

/-! ### Object representation of the header -/

/-- Byte order of the host that stores the header fields. -/
inductive ByteOrder where
  | little
  | big
  deriving DecidableEq, Repr

/-- The `w` low-order bytes of `v`, least significant first. Storing a value in
an unsigned field of `w` bytes keeps exactly these bytes (conversion modulo
`2 ^ (8 * w)`). -/
def toBytesLE : Nat → Nat → List Nat
  | 0, _ => []
  | w + 1, v => v % 256 :: toBytesLE w (v / 256)

/-- Value of a byte string read least significant byte first. -/
def fromBytesLE : List Nat → Nat
  | [] => 0
  | b :: bs => b + 256 * fromBytesLE bs

/-- Object representation of an unsigned value of `w` bytes in a byte order. -/
def encodeUInt (o : ByteOrder) (w v : Nat) : List Nat :=
  match o with
  | .little => toBytesLE w v
  | .big => (toBytesLE w v).reverse

/-- Value of an object representation in a byte order. -/
def decodeUInt (o : ByteOrder) (bs : List Nat) : Nat :=
  match o with
  | .little => fromBytesLE bs
  | .big => fromBytesLE bs.reverse

/-- Overwrite the bytes of `mem` starting at `off` with `bs`. -/
def writeAt (mem : List Nat) (off : Nat) (bs : List Nat) : List Nat :=
  mem.take off ++ bs ++ mem.drop (off + bs.length)

/-- The `w` bytes of `mem` starting at `off`. -/
def readAt (mem : List Nat) (off w : Nat) : List Nat :=
  (mem.drop off).take w

/-- A `ClientPktHeader` object is the memory of the union. -/
structure ClientPktHeader where
  bytes : List Nat
  deriving DecidableEq, Repr

/-- A zero-filled header object of `sizeof(ClientPktHeader)` bytes. -/
def ClientPktHeader.zero : ClientPktHeader :=
  ⟨List.replicate sizeofClientPktHeader 0⟩

/-- Assignment `header.<shape>.<field> = v` (with the implicit conversion to the
field type). -/
def ClientPktHeader.setField (o : ByteOrder) (h : ClientPktHeader) (s : Shape)
    (n : FieldName) (v : Nat) : ClientPktHeader :=
  ⟨writeAt h.bytes (s.offset n) (encodeUInt o (s.fieldType n).sizeof v)⟩

/-- Read of `header.<shape>.<field>`. -/
def ClientPktHeader.getField (o : ByteOrder) (h : ClientPktHeader) (s : Shape)
    (n : FieldName) : Nat :=
  decodeUInt o (readAt h.bytes (s.offset n) (s.fieldType n).sizeof)

/-- Store `(size, id)` into the `Size` and `Command` fields of one shape of a
zero-filled header. -/
def ClientPktHeader.store (o : ByteOrder) (s : Shape) (size id : Nat) : ClientPktHeader :=
  ((ClientPktHeader.zero.setField o s .Size size).setField o s .Command id)

/-- The packed bytes of one shape of a header: its first `sizeof` bytes. -/
def ClientPktHeader.serialise (h : ClientPktHeader) (s : Shape) : List Nat :=
  h.bytes.take s.size

/-- Reinterpret received bytes as a header (`reinterpret_cast<ClientPktHeader*>`). -/
def ClientPktHeader.ofBytes (bs : List Nat) : ClientPktHeader := ⟨bs⟩

/-- Read `(Size, Command)` of one shape from a header. -/
def ClientPktHeader.load (o : ByteOrder) (h : ClientPktHeader) (s : Shape) : Nat × Nat :=
  (h.getField o s .Size, h.getField o s .Command)

end WorldSocket

/-! ## Storage-id pool of `GroupMgr` (GroupMgr.cpp, lines 24-83) -/

namespace GroupMgr

/-- The largest `uint32` value, the literal `0xFFFFFFFF` of the loop bound. -/
def UINT32_MAX : Nat := 0xFFFFFFFF

/-- A group object as far as the pool is concerned: its identity and the value
returned by `GetDbStoreId()`. -/
structure Group where
  guid : Nat
  dbStoreId : Nat
  deriving DecidableEq, Repr

/-- The members of `GroupMgr` used by the storage-id pool. `GroupDbStore` is a
`std::vector<Group*>`; a `NULL` entry is `none`. `stopNow` records a call of
`World::StopNow` (the server is asked to shut down). -/
structure State where
  NextGroupDbStoreId : Nat
  NextGroupId : Nat
  GroupDbStore : List (Option Group)
  stopNow : Bool
  deriving DecidableEq, Repr

/-- Constructor `GroupMgr::GroupMgr()`: both counters start at one, the vector
is empty. -/
def new : State :=
  { NextGroupDbStoreId := 1, NextGroupId := 1, GroupDbStore := [], stopNow := false }

/-- The test of the loop body:
`(i < GroupDbStore.size() && GroupDbStore[i] == NULL) || i >= GroupDbStore.size()`. -/
def slotIsFree (store : List (Option Group)) (i : Nat) : Bool :=
  (decide (i < store.length) && (store.getD i none == none)) || decide (i ≥ store.length)

/-- Index `i` is free: out of range of the vector, or holding `NULL`. -/
def FreeIndex (store : List (Option Group)) (i : Nat) : Prop :=
  store.length ≤ i ∨ store[i]? = some none

/-- The loop `for (uint32 i = start; i < 0xFFFFFFFF; ++i) { if (free) { Next = i; break; } }`.
The result is the value of `NextGroupDbStoreId` when the loop is left: `i` at the
`break`, the unchanged value `next` when the guard fails. The first argument
counts the iterations still allowed; called with `0xFFFFFFFF - i` it reaches zero
exactly when the guard `i < 0xFFFFFFFF` fails. -/
def searchLoop (store : List (Option Group)) (next : Nat) : Nat → Nat → Nat
  | 0, _ => next
  | fuel + 1, i =>
    if i < UINT32_MAX then
      if slotIsFree store i then i else searchLoop store next fuel (i + 1)
    else next

/-- `uint32 GroupMgr::GenerateNewGroupDbStoreId()`: the returned id and the
state after the call. `++NextGroupDbStoreId` is a 32-bit unsigned increment. -/
def GenerateNewGroupDbStoreId (m : State) : Nat × State :=
  let newStorageId := m.NextGroupDbStoreId
  let start := (m.NextGroupDbStoreId + 1) % 2 ^ 32
  let next := searchLoop m.GroupDbStore start (UINT32_MAX - start) start
  let m1 := { m with NextGroupDbStoreId := next }
  if newStorageId == next then (newStorageId, { m1 with stopNow := true })
  else (newStorageId, m1)

/-- `std::vector::resize(n)`: keep the first `n` entries, pad with `NULL` up to
`n` entries. -/
def resize (store : List (Option Group)) (n : Nat) : List (Option Group) :=
  store.take n ++ List.replicate (n - store.length) none

/-- The vector after the first statement of `RegisterGroupDbStoreId`:
`if (storageId >= uint32(GroupDbStore.size())) GroupDbStore.resize(storageId + 1);`.
The cast and the sum `storageId + 1` are 32-bit unsigned. -/
def storeAfterConditionalResize (store : List (Option Group)) (storageId : Nat) :
    List (Option Group) :=
  if storageId ≥ store.length % 2 ^ 32 then resize store ((storageId + 1) % 2 ^ 32)
  else store

/-- `void GroupMgr::RegisterGroupDbStoreId(uint32 storageId, Group* group)`. The
result is `none` when the assignment `GroupDbStore[storageId] = group` is outside
the vector (undefined behaviour). -/
def RegisterGroupDbStoreId (m : State) (storageId : Nat) (group : Option Group) :
    Option State :=
  let store := storeAfterConditionalResize m.GroupDbStore storageId
  if storageId < store.length then
    some { m with GroupDbStore := store.set storageId group }
  else none

/-- `void GroupMgr::FreeGroupDbStoreId(Group* group)`, with
`storageId = group->GetDbStoreId()`. The result is `none` when the assignment
`GroupDbStore[storageId] = NULL` is outside the vector (undefined behaviour). -/
def FreeGroupDbStoreId (m : State) (group : Group) : Option State :=
  let storageId := group.dbStoreId
  let next := if storageId < m.NextGroupDbStoreId then storageId else m.NextGroupDbStoreId
  if storageId < m.GroupDbStore.length then
    some { m with NextGroupDbStoreId := next, GroupDbStore := m.GroupDbStore.set storageId none }
  else none

/-- `Group* GroupMgr::GetGroupByDbStoreId(uint32 storageId) const`. The vector is
indexed only in the first branch; an index outside the vector would give `none`
(undefined behaviour), a defined result is `some` of the returned pointer. -/
def GetGroupByDbStoreId (m : State) (storageId : Nat) : Option (Option Group) :=
  if storageId < m.GroupDbStore.length then m.GroupDbStore[storageId]?
  else some none

/-- The two steps by which the pool is used: (a) a new storage id is generated
and the group is registered at it at once, (b) a group is freed. -/
inductive Op where
  | create (g : Group)
  | free (g : Group)
  deriving DecidableEq, Repr

/-- One step. (a) `id = GenerateNewGroupDbStoreId(); RegisterGroupDbStoreId(id, g);`
for an id below `0xFFFFFFFE`; (b) `FreeGroupDbStoreId(g)` for a group that is
registered at its storage id. A step outside these conditions is not taken. -/
def applyOp (m : State) : Op → Option State
  | .create g =>
    if (GenerateNewGroupDbStoreId m).1 < 0xFFFFFFFE then
      RegisterGroupDbStoreId (GenerateNewGroupDbStoreId m).2 (GenerateNewGroupDbStoreId m).1
        (some g)
    else none
  | .free g =>
    if m.GroupDbStore[g.dbStoreId]? = some (some g) then FreeGroupDbStoreId m g else none

/-- The state after a sequence of steps, `none` if one of them is not taken. -/
def run : State → List Op → Option State
  | m, [] => some m
  | m, op :: ops =>
    match applyOp m op with
    | some m1 => run m1 ops
    | none => none

/-- `NextGroupDbStoreId` is the smallest index from 1 on that is free. -/
def NextIsSmallestFree (m : State) : Prop :=
  1 ≤ m.NextGroupDbStoreId ∧ FreeIndex m.GroupDbStore m.NextGroupDbStoreId ∧
    ∀ k, 1 ≤ k → k < m.NextGroupDbStoreId → ¬ FreeIndex m.GroupDbStore k

/-- The invariant carried along a run of steps: `NextGroupDbStoreId` is the
smallest free index from 1 on, index 0 is never used, and the vector has at most
`0xFFFFFFFE` entries. -/
def PoolInv (m : State) : Prop :=
  NextIsSmallestFree m ∧ FreeIndex m.GroupDbStore 0 ∧ m.GroupDbStore.length ≤ 0xFFFFFFFE

end GroupMgr

/-! ## Parts of the connection core whose code is outside the available sources

`WorldSocket.h` only declares `ReadHeaderHandler`, `WritePacketToBuffer`,
`CompressPacket`, the handshake handlers, and the members `_authCrypt`,
`_authed` and `_bufferQueue`. The definitions of this section follow the wording
of the specification (sections 3, 4.1, 4.2, 4.3, 4.4, 6 and 8) for these parts.
-/

namespace FrameCodec

open WorldSocket

/-- The error of a failed header decode (specification, section 7). -/
inductive FormatError where
  | ProtocolViolation
  deriving DecidableEq, Repr

/-- A decoded header: payload size and message id. -/
structure Header where
  size : Nat
  messageId : Nat
  deriving DecidableEq, Repr

/-- Modelled from the spec: the body of `WorldSocket::ReadHeaderHandler` is missing
from the sources. Section 4.2: `decode_header(bytes) -> Header | FormatError`
"rejects on size-out-of-range or unknown message id"; section 9: "read a fixed
prefix, branch on connection phase (pre/post-auth) to choose the short or long
header shape, and validate fields before trusting them". The fields are read
through the union of `WorldSocket.h` and validated with its two validators. -/
def decode_header (o : ByteOrder) (NUM_OPCODE_HANDLERS : Nat) (phase : Shape)
    (bytes : List Nat) : Except FormatError Header :=
  let f := (ClientPktHeader.ofBytes bytes).load o phase
  if !IsValidSize f.1 || !IsValidOpcode NUM_OPCODE_HANDLERS f.2 then
    .error .ProtocolViolation
  else
    .ok ⟨f.1, f.2⟩

end FrameCodec

namespace StreamCipher

/-- The two seed constants of the key derivation (section 4.1: a "server key
seed" and a "client key seed"). -/
inductive Seed where
  | serverKeySeed
  | clientKeySeed
  deriving DecidableEq, Repr

/-- Modelled from the spec: the class `WorldPacketCrypt` behind `_authCrypt` is
missing from the sources. Section 4.1 and the glossary describe a "symmetric
stream cipher producing a pseudorandom byte stream combined with
plaintext/ciphertext via a reversible per-byte operation", with keys obtained
from the secret by "HMAC-style derivations" keyed by a seed. The derivation, the
keystream generator and the per-byte operation with its inverse are the
ingredients the specification leaves open. -/
structure Scheme where
  deriveKey : Seed → List Nat → List Nat
  keystream : List Nat → Nat → Nat
  combine : Nat → Nat → Nat
  uncombine : Nat → Nat → Nat

/-- The per-byte operation is reversible. -/
def Scheme.Reversible (S : Scheme) : Prop :=
  ∀ k b, S.uncombine k (S.combine k b) = b

/-- Modelled from the spec: one keystream schedule (section 3, `CipherState`):
the derived key, fixed after derivation, and the position in its keystream. -/
structure KeyState where
  key : List Nat
  pos : Nat
  deriving DecidableEq, Repr

/-- Modelled from the spec: `encrypt(state, plaintext) -> ciphertext` of section
4.1, byte by byte: each byte is combined with the keystream byte at the current
position and the position advances by one. -/
def encrypt (S : Scheme) : KeyState → List Nat → List Nat × KeyState
  | st, [] => ([], st)
  | st, b :: bs =>
    let r := encrypt S ⟨st.key, st.pos + 1⟩ bs
    (S.combine (S.keystream st.key st.pos) b :: r.1, r.2)

/-- Modelled from the spec: `decrypt(state, ciphertext) -> plaintext` of section
4.1, the inverse per-byte operation over the same keystream. -/
def decrypt (S : Scheme) : KeyState → List Nat → List Nat × KeyState
  | st, [] => ([], st)
  | st, c :: cs =>
    let r := decrypt S ⟨st.key, st.pos + 1⟩ cs
    (S.uncombine (S.keystream st.key st.pos) c :: r.1, r.2)

/-- A concrete instance of `Scheme`, used only to evaluate the general theorems
at a concrete input: exclusive-or with a keystream that mixes the key bytes and
the position. -/
def xorScheme : Scheme where
  deriveKey := fun s secret =>
    match s with
    | .serverKeySeed => secret.map (fun b => (b + 1) % 256)
    | .clientKeySeed => secret.map (fun b => (b + 2) % 256)
  keystream := fun key pos => (key.sum + 7 * pos + 3) % 256
  combine := fun k b => k ^^^ b
  uncombine := fun k c => k ^^^ c

end StreamCipher

namespace FrameCodec

open StreamCipher

/-- Modelled from the spec: `OutboundMessage` of section 3, "an immutable,
already-serialized payload plus its message id, optionally tagged may be
compressed". -/
structure OutboundMessage where
  messageId : Nat
  payload : List Nat
  compressible : Bool
  deriving DecidableEq, Repr

/-- The "DEFLATE-style compressor" of section 4.2, an external library.
Decompression of arbitrary bytes may fail. -/
structure Compressor where
  compress : List Nat → List Nat
  decompress : List Nat → Option (List Nat)

/-- The contract of the external compressor: decompression undoes compression. -/
def Compressor.Lossless (Z : Compressor) : Prop :=
  ∀ p, Z.decompress (Z.compress p) = some p

/-- Constants of the codec whose values are outside the available sources:
`WorldSocket::MinSizeForCompression` (declared in `WorldSocket.h`, "representative
value: 0x400 bytes") and the reserved "compressed envelope" message id. -/
structure Config where
  MinSizeForCompression : Nat
  compressedId : Nat
  deriving DecidableEq, Repr

/-- What is written for one message: the message id that goes into the header
and the bytes that follow the header. -/
structure Written where
  messageId : Nat
  body : List Nat
  deriving DecidableEq, Repr

/-- Modelled from the spec: the compressed envelope of section 6, "a 4-byte
little-endian uncompressed-size field followed by the compressed bytes". -/
def envelope (Z : Compressor) (payload : List Nat) : List Nat :=
  WorldSocket.toBytesLE 4 payload.length ++ Z.compress payload

/-- Modelled from the spec: reading a compressed envelope back, dropping the
4-byte size field and decompressing the rest. -/
def openEnvelope (Z : Compressor) (bytes : List Nat) : Option (List Nat) :=
  Z.decompress (bytes.drop 4)

/-- Modelled from the spec: the cipher as the write path applies it, section 4.2:
the bytes are "always passed through Stream Cipher encrypt if the connection is
authenticated". The argument is the send schedule of an authenticated
connection, `none` before authentication. -/
def encryptIfAuthenticated (S : Scheme) (cipher : Option KeyState) (bytes : List Nat) :
    List Nat :=
  match cipher with
  | some st => (encrypt S st bytes).1
  | none => bytes

/-- Modelled from the spec: the cipher as the read path of the peer applies it,
section 4.2: "for unauthenticated connections returns the raw bytes; for
authenticated connections first applies Stream Cipher decrypt". The argument is
the receive schedule matching the send schedule, at the same position. -/
def decryptIfAuthenticated (S : Scheme) (cipher : Option KeyState) (bytes : List Nat) :
    List Nat :=
  match cipher with
  | some st => (decrypt S st bytes).1
  | none => bytes

/-- Modelled from the spec: the bodies of `WorldSocket::WritePacketToBuffer` and
`CompressPacket` are missing from the sources. Section 4.2, `encode_outbound`: "if
the message is tagged compressible and its serialized size exceeds a fixed
threshold ... the payload is passed through a DEFLATE-style compressor first and
the header's message id is replaced with a compressed envelope id carrying the
uncompressed size as a prefix; the result (compressed or not) is then always
passed through Stream Cipher encrypt if the connection is authenticated". The
side of the threshold itself is taken from the testable property of section 8:
"for payloads below the threshold, output equals encrypt(raw payload); for
payloads at/above threshold, decompressing the post-decrypt bytes yields the
original payload"; the two sentences differ for a payload of exactly the
threshold size only. -/
def encode_outbound (S : Scheme) (Z : Compressor) (cfg : Config) (msg : OutboundMessage)
    (cipher : Option KeyState) : Written × Option KeyState :=
  let framed : Written :=
    if msg.compressible && decide (cfg.MinSizeForCompression ≤ msg.payload.length) then
      ⟨cfg.compressedId, envelope Z msg.payload⟩
    else
      ⟨msg.messageId, msg.payload⟩
  match cipher with
  | some st =>
    let r := encrypt S st framed.body
    (⟨framed.messageId, r.1⟩, some r.2)
  | none => (framed, none)

/-- A concrete instance of `Compressor`, used only to evaluate the general
theorems at a concrete input: a "stored block" format, a marker byte followed by
the data. -/
def storedCompressor : Compressor where
  compress := fun p => 1 :: p
  decompress := fun bs =>
    match bs with
    | 1 :: p => some p
    | _ => none

end FrameCodec

namespace Handshake

/-- Modelled from the spec: the connection states of section 4.4,
`AwaitingInitialize → AwaitingAuthSession → Authenticated`, and the terminal
state `Closed`. -/
inductive ConnState where
  | AwaitingInitialize
  | AwaitingAuthSession
  | Authenticated
  | Closed
  deriving DecidableEq, Repr

/-- Outcome of checking an `AuthSession` or `AuthContinuedSession` message
(section 4.4 and section 7). -/
inductive AuthOutcome where
  | success
  | proofMismatch
  | unknownAccount
  | bannedAccount
  | versionMismatch
  | collaboratorFailure
  deriving DecidableEq, Repr

/-- What can happen on a connection (sections 4.4, 4.5 and 7). -/
inductive Event where
  | preamble (isMagic : Bool)
  | authSession (outcome : AuthOutcome)
  | authContinuedSession (outcome : AuthOutcome)
  | message (wellFormed : Bool)
  | ping (overspeed : Bool)
  | transportFailure
  | shutdown
  deriving DecidableEq, Repr

/-- Modelled from the spec: the bodies of `InitializeHandler`, `HandleAuthSession`,
`HandleAuthContinuedSession` and their callbacks are missing from the sources.
Section 4.4: in `AwaitingInitialize` the magic preamble moves the connection on
and anything else closes it; in `AwaitingAuthSession` a successful proof check
moves it to `Authenticated`, every rejection closes it, and nothing but the two
auth messages is expected; in `Authenticated` "all subsequent messages" are
dispatched, and a malformed frame or a ping flood closes the connection; a
transport failure or a shutdown closes it from any state; `Closed` is terminal. -/
def step : ConnState → Event → ConnState
  | .Closed, _ => .Closed
  | _, .transportFailure => .Closed
  | _, .shutdown => .Closed
  | .AwaitingInitialize, .preamble true => .AwaitingAuthSession
  | .AwaitingInitialize, _ => .Closed
  | .AwaitingAuthSession, .authSession .success => .Authenticated
  | .AwaitingAuthSession, .authContinuedSession .success => .Authenticated
  | .AwaitingAuthSession, _ => .Closed
  | .Authenticated, .message false => .Closed
  | .Authenticated, .ping true => .Closed
  | .Authenticated, _ => .Authenticated

/-- The flag `_authed` of `WorldSocket`: set exactly in the state `Authenticated`. -/
def authed (s : ConnState) : Bool := s == .Authenticated

/-- The states a connection goes through, the starting state first. -/
def trace : ConnState → List Event → List ConnState
  | s, [] => [s]
  | s, e :: es => s :: trace (step s e) es

end Handshake

namespace OutboundQueue

/-- A queued message: the producer thread that pushed it and its content. -/
structure Message where
  producer : Nat
  content : Nat
  deriving DecidableEq, Repr

/-- Modelled from the spec: the class `MPSCQueue` behind `_bufferQueue` is missing
from the sources. Section 4.3 describes "an intrusive lock-free append-only
structure": "each push atomically links a new node; drain atomically detaches the
entire current list head and reverses it into enqueue order for delivery". The
queue is the linked list of nodes, the most recently linked node first. -/
structure Queue where
  nodes : List Message
  deriving DecidableEq, Repr

/-- The empty queue of a new connection. -/
def Queue.empty : Queue := ⟨[]⟩

/-- Modelled from the spec: `push(message)` of section 4.3, one atomic step that
links a new node in front of the current list head. -/
def push (q : Queue) (m : Message) : Queue := ⟨m :: q.nodes⟩

/-- Modelled from the spec: `drain_all()` of section 4.3, one atomic step that
detaches the whole list and reverses it into enqueue order; the queue is left
empty. -/
def drain_all (q : Queue) : List Message × Queue := (q.nodes.reverse, ⟨[]⟩)

/-- One atomic step of an execution: a push by some producer thread, or a drain by
the single consumer. -/
inductive Step where
  | push (m : Message)
  | drain
  deriving DecidableEq, Repr

/-- The queue together with the batches the consumer has received so far, the
earliest drain first. -/
structure Execution where
  queue : Queue
  delivered : List (List Message)
  deriving DecidableEq, Repr

/-- The start of an execution: empty queue, nothing delivered. -/
def Execution.start : Execution := ⟨Queue.empty, []⟩

/-- Effect of one step. -/
def step (e : Execution) : Step → Execution
  | .push m => ⟨push e.queue m, e.delivered⟩
  | .drain => ⟨(drain_all e.queue).2, e.delivered ++ [(drain_all e.queue).1]⟩

/-- Effect of an interleaving of pushes and drains, given as the sequence of the
atomic steps in the order they take effect. -/
def run : Execution → List Step → Execution
  | e, [] => e
  | e, s :: ss => run (step e s) ss

/-- The messages pushed in an interleaving, in the order the pushes take effect. -/
def pushed : List Step → List Message
  | [] => []
  | .push m :: ss => m :: pushed ss
  | .drain :: ss => pushed ss

/-- The messages of one producer in a list of messages, in the order of the list. -/
def ofProducer (p : Nat) (ms : List Message) : List Message :=
  ms.filter (fun m => m.producer == p)

/-- The steps interleave the pushes of `seqs.length` producer threads, producer
`p` pushing the contents `seqs[p]` in that order: every push is by one of these
producers, and the pushes of each producer, in the order they take effect, are
its own sequence. -/
def Interleaves (seqs : List (List Nat)) (steps : List Step) : Prop :=
  (∀ m ∈ pushed steps, m.producer < seqs.length) ∧
  ∀ p, p < seqs.length →
    (ofProducer p (pushed steps)).map (fun m => m.content) = seqs.getD p []

end OutboundQueue

/-! ## Theorems: header validators, layout and round trip -/

set_option maxRecDepth 100000

namespace WorldSocket

/-- C1: `ClientPktHeader::IsValidSize` accepts exactly the sizes below 10240:
the verdict is true if and only if `size < 10240`; 10239 is accepted, 10240 and
every larger value up to `0xFFFFFFFF` is rejected; and two headers of any shapes
whose `Size` fields hold the same number get the same verdict. -/
theorem IsValidSize_accepts_exactly_below_10240 :
    (∀ size : Nat, IsValidSize size = true ↔ size < 10240) ∧
    IsValidSize 0 = true ∧ IsValidSize 10239 = true ∧
    IsValidSize 10240 = false ∧ IsValidSize 0xFFFFFFFF = false ∧
    (∀ size : Nat, 10240 ≤ size ∧ size ≤ 0xFFFFFFFF → IsValidSize size = false) ∧
    (∀ (o : ByteOrder) (h₁ h₂ : ClientPktHeader) (s₁ s₂ : Shape),
      h₁.getField o s₁ .Size = h₂.getField o s₂ .Size →
      IsValidSize (h₁.getField o s₁ .Size) = IsValidSize (h₂.getField o s₂ .Size)) := by
  refine ⟨fun size => by simp [IsValidSize], by decide, by decide, by decide, by decide, ?_, ?_⟩
  · intro size h
    simp only [IsValidSize, decide_eq_false_iff_not]
    omega
  · intro o h₁ h₂ s₁ s₂ h
    rw [h]

/-- Offsets, field types and sizes of the two shapes, evaluated from the
declaration under packing 1. -/
theorem layout_eval :
    Shape.Setup.offset .Size = 0 ∧ Shape.Setup.offset .Command = 2 ∧
    Shape.Normal.offset .Size = 0 ∧ Shape.Normal.offset .Command = 4 ∧
    Shape.Setup.fieldType .Size = .uint16 ∧ Shape.Setup.fieldType .Command = .uint16 ∧
    Shape.Normal.fieldType .Size = .uint32 ∧ Shape.Normal.fieldType .Command = .uint16 ∧
    Shape.Setup.size = 4 ∧ Shape.Normal.size = 6 ∧ sizeofClientPktHeader = 6 := by
  decide

/-- Storing `(size, id)` in either shape and reading the fields back from the
packed bytes gives `(size % 2 ^ width, id % 2 ^ 16)`: for values that fit their
fields nothing is lost. -/
theorem load_store_of_fits (o : ByteOrder) (s : Shape) (size id : Nat)
    (hs : size < 65536) (hid : id < 65536) :
    (ClientPktHeader.ofBytes ((ClientPktHeader.store o s size id).serialise s)).load o s
      = (size, id) := by
  obtain ⟨a1, a2, a3, a4, a5, a6, a7, a8, a9, a10, a11⟩ := layout_eval
  cases o <;> cases s <;>
    simp [ClientPktHeader.ofBytes, ClientPktHeader.store, ClientPktHeader.serialise,
      ClientPktHeader.load, ClientPktHeader.getField, ClientPktHeader.setField,
      ClientPktHeader.zero, a1, a2, a3, a4, a5, a6, a7, a8, a9, a10, a11, CType.sizeof,
      encodeUInt, decodeUInt, toBytesLE, fromBytesLE, writeAt, readAt, List.replicate] <;>
    omega

/-- C3: header round trip. For every size accepted by `IsValidSize` and every
message id accepted by `IsValidOpcode` that fits 16 bits, in either byte order
and in either shape of the union (setup: 16-bit `Size`, normal: 32-bit `Size`),
storing `(size, id)` into the fields, taking the packed bytes of that shape and
reading the fields back from those bytes gives `(size, id)` again; the packed
bytes are 4 respectively 6 bytes long, and the setup `Size` field does not
truncate the size. -/
theorem header_round_trip (o : ByteOrder) (NUM_OPCODE_HANDLERS size id : Nat)
    (hsize : IsValidSize size = true)
    (hid : IsValidOpcode NUM_OPCODE_HANDLERS id = true) (h16 : id < 2 ^ 16) :
    (∀ s : Shape,
      (ClientPktHeader.ofBytes ((ClientPktHeader.store o s size id).serialise s)).load o s
        = (size, id)) ∧
    ((ClientPktHeader.store o .Setup size id).serialise .Setup).length = 4 ∧
    ((ClientPktHeader.store o .Normal size id).serialise .Normal).length = 6 ∧
    (ClientPktHeader.store o .Setup size id).getField o .Setup .Size = size ∧
    size % 2 ^ 16 = size ∧
    (∀ s : Shape,
      IsValidSize ((ClientPktHeader.ofBytes
        ((ClientPktHeader.store o s size id).serialise s)).load o s).1 = true ∧
      IsValidOpcode NUM_OPCODE_HANDLERS ((ClientPktHeader.ofBytes
        ((ClientPktHeader.store o s size id).serialise s)).load o s).2 = true) := by
  have hs : size < 10240 := by simpa [IsValidSize] using hsize
  have hs16 : size < 65536 := by omega
  have h16' : id < 65536 := by simpa using h16
  have key := fun s => load_store_of_fits o s size id hs16 h16'
  obtain ⟨a1, a2, a3, a4, a5, a6, a7, a8, a9, a10, a11⟩ := layout_eval
  refine ⟨key, ?_, ?_, ?_, ?_, ?_⟩
  rotate_right
  · intro s
    rw [key s]
    exact ⟨hsize, hid⟩
  · cases o <;>
      simp [ClientPktHeader.store, ClientPktHeader.serialise, ClientPktHeader.setField,
        ClientPktHeader.zero, a1, a2, a3, a4, a5, a6, a7, a8, a9, a10, a11, CType.sizeof,
        encodeUInt, toBytesLE, writeAt, List.replicate]
  · cases o <;>
      simp [ClientPktHeader.store, ClientPktHeader.serialise, ClientPktHeader.setField,
        ClientPktHeader.zero, a1, a2, a3, a4, a5, a6, a7, a8, a9, a10, a11, CType.sizeof,
        encodeUInt, toBytesLE, writeAt, List.replicate]
  · cases o <;>
      simp [ClientPktHeader.store, ClientPktHeader.getField, ClientPktHeader.setField,
        ClientPktHeader.zero, a1, a2, a3, a4, a5, a6, a7, a8, a9, a10, a11, CType.sizeof,
        encodeUInt, decodeUInt, toBytesLE, fromBytesLE, writeAt, readAt, List.replicate] <;>
      omega
  · omega

/-- Witness for `header_round_trip`: the largest valid size, 10239, with message
id 0x3F6 and a table of 0x4000 handlers, on a little-endian host. -/
theorem header_round_trip_witness :
    (∀ s : Shape,
      (ClientPktHeader.ofBytes
        ((ClientPktHeader.store .little s 10239 0x3F6).serialise s)).load .little s
        = (10239, 0x3F6)) ∧
    ((ClientPktHeader.store .little .Setup 10239 0x3F6).serialise .Setup).length = 4 ∧
    ((ClientPktHeader.store .little .Normal 10239 0x3F6).serialise .Normal).length = 6 ∧
    (ClientPktHeader.store .little .Setup 10239 0x3F6).getField .little .Setup .Size = 10239 ∧
    10239 % 2 ^ 16 = 10239 ∧
    (∀ s : Shape,
      IsValidSize ((ClientPktHeader.ofBytes
        ((ClientPktHeader.store .little s 10239 0x3F6).serialise s)).load .little s).1 = true ∧
      IsValidOpcode 0x4000 ((ClientPktHeader.ofBytes
        ((ClientPktHeader.store .little s 10239 0x3F6).serialise s)).load .little s).2 = true) :=
  header_round_trip .little 0x4000 10239 0x3F6 (by decide) (by decide) (by decide)

/-- C4: layout of `ClientPktHeader` under `#pragma pack(push, 1)`. The setup
shape is 4 bytes, `Size` (2 bytes) at offset 0 and `Command` (2 bytes) at offset
2; the normal shape is 6 bytes, `Size` (4 bytes) at offset 0 and `Command`
(2 bytes) at offset 4; neither has padding (each size is the sum of its field
widths and `Command` starts where `Size` ends); the union occupies 6 bytes. -/
theorem ClientPktHeader_layout :
    Shape.Setup.size = 4 ∧
    (layoutFrom packValue Shape.Setup.fields 0).1 = [(.Size, 0), (.Command, 2)] ∧
    (Shape.Setup.fields.map fun f => f.ty.sizeof) = [2, 2] ∧
    Shape.Normal.size = 6 ∧
    (layoutFrom packValue Shape.Normal.fields 0).1 = [(.Size, 0), (.Command, 4)] ∧
    (Shape.Normal.fields.map fun f => f.ty.sizeof) = [4, 2] ∧
    (∀ s : Shape, s.size = (s.fields.map fun f => f.ty.sizeof).sum) ∧
    (∀ s : Shape, s.offset .Size = 0 ∧ s.offset .Command = (s.fieldType .Size).sizeof) ∧
    sizeofClientPktHeader = 6 := by
  refine ⟨by decide, by decide, by decide, by decide, by decide, by decide, ?_, ?_, by decide⟩
  · intro s
    cases s <;> decide
  · intro s
    cases s <;> decide

/-- The packing matters: with the natural alignment of its fields the normal
shape would be padded to 8 bytes. -/
theorem normal_shape_padded_without_packing :
    structSize 4 Shape.Normal.fields = 8 ∧ structSize 1 Shape.Normal.fields = 6 := by
  decide

end WorldSocket

namespace FrameCodec

open WorldSocket

/-- C2: `ClientPktHeader::IsValidOpcode` accepts exactly the message ids below
`NUM_OPCODE_HANDLERS`; and the header decoder accepts a header exactly when both
`IsValidSize` of its size and `IsValidOpcode` of its message id hold, returning
these two fields, and answers `ProtocolViolation` exactly when one of the two
validators fails. -/
theorem IsValidOpcode_iff_and_decode_header_accepts (NUM_OPCODE_HANDLERS : Nat) :
    (∀ opcode : Nat,
      IsValidOpcode NUM_OPCODE_HANDLERS opcode = true ↔ opcode < NUM_OPCODE_HANDLERS) ∧
    (∀ (o : ByteOrder) (phase : Shape) (bytes : List Nat),
      (decode_header o NUM_OPCODE_HANDLERS phase bytes
          = .ok ⟨((ClientPktHeader.ofBytes bytes).load o phase).1,
                 ((ClientPktHeader.ofBytes bytes).load o phase).2⟩ ↔
        IsValidSize ((ClientPktHeader.ofBytes bytes).load o phase).1 = true ∧
        IsValidOpcode NUM_OPCODE_HANDLERS ((ClientPktHeader.ofBytes bytes).load o phase).2
          = true) ∧
      (decode_header o NUM_OPCODE_HANDLERS phase bytes = .error .ProtocolViolation ↔
        IsValidSize ((ClientPktHeader.ofBytes bytes).load o phase).1 = false ∨
        IsValidOpcode NUM_OPCODE_HANDLERS ((ClientPktHeader.ofBytes bytes).load o phase).2
          = false) ∧
      (∀ h, decode_header o NUM_OPCODE_HANDLERS phase bytes = .ok h →
        h.size < 10240 ∧ h.messageId < NUM_OPCODE_HANDLERS)) := by
  refine ⟨fun opcode => by simp [IsValidOpcode], ?_⟩
  intro o phase bytes
  simp only [decode_header]
  cases h1 : IsValidSize ((ClientPktHeader.ofBytes bytes).load o phase).1 <;>
    cases h2 : IsValidOpcode NUM_OPCODE_HANDLERS
      ((ClientPktHeader.ofBytes bytes).load o phase).2 <;>
    simp
  simpa [IsValidSize, IsValidOpcode] using And.intro h1 h2

end FrameCodec

/-! ## Theorems: stream cipher -/

namespace StreamCipher

/-- Decrypting a ciphertext under the key and position it was produced with
returns the payload, when the per-byte operation is reversible. -/
theorem decrypt_encrypt (S : Scheme) (hS : S.Reversible) (st : KeyState) (p : List Nat) :
    (decrypt S st (encrypt S st p).1).1 = p := by
  induction p generalizing st with
  | nil => simp [encrypt, decrypt]
  | cons b bs ih =>
    simp only [encrypt, decrypt, ih, hS _ _]

/-- The exclusive-or scheme is reversible. -/
theorem xorScheme_reversible : xorScheme.Reversible := by
  intro k b
  simp [xorScheme, Nat.xor_cancel_left]

end StreamCipher

/-! ## Theorems: outbound compression -/

namespace FrameCodec

open StreamCipher

/-- The stored-block compressor is lossless. -/
theorem storedCompressor_lossless : storedCompressor.Lossless := by
  intro p
  simp [storedCompressor]

/-- The size field of an envelope is four bytes long. -/
theorem toBytesLE_length (w v : Nat) : (WorldSocket.toBytesLE w v).length = w := by
  induction w generalizing v with
  | zero => simp [WorldSocket.toBytesLE]
  | succ n ih => simp [WorldSocket.toBytesLE, ih]

/-- Reading back the `w` low-order bytes of `v` gives `v` modulo `256 ^ w`. -/
theorem fromBytesLE_toBytesLE (w v : Nat) :
    WorldSocket.fromBytesLE (WorldSocket.toBytesLE w v) = v % 256 ^ w := by
  induction w generalizing v with
  | zero => simp [WorldSocket.toBytesLE, WorldSocket.fromBytesLE, Nat.mod_one]
  | succ n ih =>
    simp only [WorldSocket.toBytesLE, WorldSocket.fromBytesLE, ih]
    rw [pow_succ, Nat.mul_comm (256 ^ n) 256, Nat.mod_mul]

/-- What the write path encrypts, the read path of the peer decrypts back, on an
authenticated connection and before authentication alike. -/
theorem decryptIfAuthenticated_encryptIfAuthenticated (S : Scheme) (hS : S.Reversible)
    (cipher : Option KeyState) (bytes : List Nat) :
    decryptIfAuthenticated S cipher (encryptIfAuthenticated S cipher bytes) = bytes := by
  cases cipher with
  | none => rfl
  | some st => exact decrypt_encrypt S hS st bytes

/-- What is written for a message, in terms of the compression rule: the
envelope under the compressed id for a compressible message at or above the
threshold, the raw payload under the original id otherwise; then the cipher. -/
theorem encode_outbound_eq (S : Scheme) (Z : Compressor) (cfg : Config)
    (msg : OutboundMessage) (cipher : Option KeyState) :
    (encode_outbound S Z cfg msg cipher).1 =
      if msg.compressible && decide (cfg.MinSizeForCompression ≤ msg.payload.length) then
        ⟨cfg.compressedId, encryptIfAuthenticated S cipher (envelope Z msg.payload)⟩
      else
        ⟨msg.messageId, encryptIfAuthenticated S cipher msg.payload⟩ := by
  cases cipher with
  | none => simp only [encode_outbound, encryptIfAuthenticated]
  | some st =>
    simp only [encode_outbound, encryptIfAuthenticated]
    split <;> rfl

/-- A message that is not tagged compressible is written as the raw payload under
its own message id, whatever its size. -/
theorem encode_outbound_untagged (S : Scheme) (Z : Compressor) (cfg : Config)
    (msg : OutboundMessage) (cipher : Option KeyState) (h : msg.compressible = false) :
    (encode_outbound S Z cfg msg cipher).1 =
      ⟨msg.messageId, encryptIfAuthenticated S cipher msg.payload⟩ := by
  rw [encode_outbound_eq, h]
  rfl

/-- C6: outbound compression. With a reversible cipher and a lossless
compressor, for every connection state: (a) every payload whose size is below
`MinSizeForCompression` is written as exactly the encryption of the raw payload
under the original message id (on an authenticated connection
`encrypt(raw payload)` with the send schedule); (b) every payload of a message
tagged compressible whose size is at or above `MinSizeForCompression` is written
under the compressed-envelope id as the encryption of the envelope, and
decrypting the written bytes and decompressing them (after the 4-byte size
field, which holds the payload size) yields the original payload exactly. This
covers the empty payload and the 10239-byte payload on whichever side of the
threshold they fall. -/
theorem encode_outbound_written (S : Scheme) (Z : Compressor) (cfg : Config)
    (msg : OutboundMessage) (cipher : Option KeyState) (hS : S.Reversible)
    (hZ : Z.Lossless) :
    (msg.payload.length < cfg.MinSizeForCompression →
      (encode_outbound S Z cfg msg cipher).1
        = ⟨msg.messageId, encryptIfAuthenticated S cipher msg.payload⟩ ∧
      (∀ st, cipher = some st →
        (encode_outbound S Z cfg msg cipher).1.body = (encrypt S st msg.payload).1) ∧
      decryptIfAuthenticated S cipher (encode_outbound S Z cfg msg cipher).1.body
        = msg.payload) ∧
    (msg.compressible = true → cfg.MinSizeForCompression ≤ msg.payload.length →
      (encode_outbound S Z cfg msg cipher).1.messageId = cfg.compressedId ∧
      (encode_outbound S Z cfg msg cipher).1.body
        = encryptIfAuthenticated S cipher (envelope Z msg.payload) ∧
      openEnvelope Z
          (decryptIfAuthenticated S cipher (encode_outbound S Z cfg msg cipher).1.body)
        = some msg.payload ∧
      WorldSocket.fromBytesLE
          ((decryptIfAuthenticated S cipher
            (encode_outbound S Z cfg msg cipher).1.body).take 4)
        = msg.payload.length % 2 ^ 32) := by
  constructor
  · intro h
    have hc : (msg.compressible &&
        decide (cfg.MinSizeForCompression ≤ msg.payload.length)) = false := by
      simp only [Bool.and_eq_false_imp, decide_eq_false_iff_not]
      intro _
      omega
    rw [encode_outbound_eq, hc]
    refine ⟨rfl, ?_, decryptIfAuthenticated_encryptIfAuthenticated S hS cipher _⟩
    intro st hst
    rw [hst]
    rfl
  · intro ht hle
    have hc : (msg.compressible &&
        decide (cfg.MinSizeForCompression ≤ msg.payload.length)) = true := by
      simp [ht, hle]
    rw [encode_outbound_eq, hc]
    simp only [if_true, decryptIfAuthenticated_encryptIfAuthenticated S hS]
    refine ⟨trivial, trivial, ?_, ?_⟩
    · simp [openEnvelope, envelope, toBytesLE_length, hZ msg.payload]
    · have h4 : (WorldSocket.toBytesLE 4 msg.payload.length).length = 4 :=
        toBytesLE_length 4 _
      rw [envelope, List.take_append_of_le_length (by omega), List.take_of_length_le (by omega),
        fromBytesLE_toBytesLE]
      norm_num

/-- Witness for `encode_outbound_written`: the exclusive-or scheme, the
stored-block compressor, a threshold of 0x400 and a compressible message of
exactly 0x400 zero bytes on an authenticated connection. -/
theorem encode_outbound_written_witness :
    openEnvelope storedCompressor
      (decryptIfAuthenticated xorScheme (some ⟨[1], 0⟩)
        (encode_outbound xorScheme storedCompressor ⟨0x400, 99⟩
          ⟨7, List.replicate 0x400 0, true⟩ (some ⟨[1], 0⟩)).1.body)
      = some (List.replicate 0x400 0) :=
  ((encode_outbound_written xorScheme storedCompressor ⟨0x400, 99⟩
    ⟨7, List.replicate 0x400 0, true⟩ (some ⟨[1], 0⟩) xorScheme_reversible
    storedCompressor_lossless).2 rfl (by decide)).2.2.1

end FrameCodec

/-! ## Theorems: handshake state machine -/

namespace Handshake

/-- From `Closed` every event leads to `Closed`. -/
theorem step_closed (e : Event) : step .Closed e = .Closed := by
  cases e <;> rfl

/-- From `Authenticated` an event keeps the state or closes the connection. -/
theorem step_authenticated (e : Event) :
    step .Authenticated e = .Authenticated ∨ step .Authenticated e = .Closed := by
  rcases e with b | o | o | b | b | _ | _ <;> first
    | (cases b <;> simp [step])
    | (cases o <;> simp [step])
    | simp [step]

/-- From `AwaitingAuthSession` an event authenticates or closes the connection. -/
theorem step_awaitingAuthSession (e : Event) :
    step .AwaitingAuthSession e = .Authenticated ∨ step .AwaitingAuthSession e = .Closed := by
  rcases e with b | o | o | b | b | _ | _ <;> first
    | (cases b <;> simp [step])
    | (cases o <;> simp [step])
    | simp [step]

/-- From `AwaitingInitialize` an event moves on to `AwaitingAuthSession` or
closes the connection. -/
theorem step_awaitingInitialize (e : Event) :
    step .AwaitingInitialize e = .AwaitingAuthSession ∨
      step .AwaitingInitialize e = .Closed := by
  rcases e with b | o | o | b | b | _ | _ <;> first
    | (cases b <;> simp [step])
    | (cases o <;> simp [step])
    | simp [step]

/-- A trace that starts in `Closed` stays there. -/
theorem trace_closed (es : List Event) :
    trace .Closed es = List.replicate (es.length + 1) .Closed := by
  induction es with
  | nil => rfl
  | cons e es ih => simp [trace, step_closed, ih, List.replicate_succ]

/-- A trace that starts in `Authenticated` is a run of `Authenticated` followed
by a run of `Closed`. -/
theorem trace_authenticated (es : List Event) :
    ∃ c d, trace .Authenticated es =
      List.replicate (c + 1) .Authenticated ++ List.replicate d .Closed := by
  induction es with
  | nil => exact ⟨0, 0, rfl⟩
  | cons e es ih =>
    rcases step_authenticated e with h | h
    · obtain ⟨c, d, hcd⟩ := ih
      exact ⟨c + 1, d, by simp [trace, h, hcd, List.replicate_succ]⟩
    · exact ⟨0, es.length + 1, by simp [trace, h, trace_closed, List.replicate_succ]⟩

/-- A trace that starts in `AwaitingAuthSession` is a run of that state, then
of `Authenticated`, then of `Closed`. -/
theorem trace_awaitingAuthSession (es : List Event) :
    ∃ b c d, trace .AwaitingAuthSession es =
      List.replicate (b + 1) .AwaitingAuthSession ++ List.replicate c .Authenticated ++
        List.replicate d .Closed := by
  cases es with
  | nil => exact ⟨0, 0, 0, rfl⟩
  | cons e es =>
    rcases step_awaitingAuthSession e with h | h
    · obtain ⟨c, d, hcd⟩ := trace_authenticated es
      exact ⟨0, c + 1, d, by simp [trace, h, hcd, List.replicate_succ]⟩
    · exact ⟨0, 0, es.length + 1, by simp [trace, h, trace_closed, List.replicate_succ]⟩

/-- C8: the handshake never skips a state. (1) A single event leaves the state
unchanged or performs one of the transitions `AwaitingInitialize` to
`AwaitingAuthSession`, `AwaitingAuthSession` to `Authenticated`, any state to
`Closed`. (2) The states a connection goes through, from `AwaitingInitialize` on,
are a non-empty run of `AwaitingInitialize`, then a run of `AwaitingAuthSession`,
then a run of `Authenticated`, then a run of `Closed`, and the `Authenticated`
run is empty unless the `AwaitingAuthSession` run is non-empty; so `_authed` is
never set without both earlier states. (3) After `Authenticated` only
`Authenticated` and `Closed` occur, and after `Closed` only `Closed`. -/
theorem handshake_never_skips_a_state :
    (∀ (s : ConnState) (e : Event),
      step s e = s ∨
      (s = .AwaitingInitialize ∧ step s e = .AwaitingAuthSession) ∨
      (s = .AwaitingAuthSession ∧ step s e = .Authenticated) ∨
      step s e = .Closed) ∧
    (∀ es : List Event, ∃ a b c d,
      trace .AwaitingInitialize es =
        List.replicate (a + 1) .AwaitingInitialize ++ List.replicate b .AwaitingAuthSession ++
          List.replicate c .Authenticated ++ List.replicate d .Closed ∧
      (0 < c → 0 < b)) ∧
    (∀ (es : List Event) (s : ConnState), s ∈ trace .Authenticated es →
      authed s = true ∨ s = .Closed) ∧
    (∀ (es : List Event) (s : ConnState), s ∈ trace .Closed es → s = .Closed) := by
  refine ⟨?_, ?_, ?_, ?_⟩
  · intro s e
    cases s
    · rcases step_awaitingInitialize e with h | h <;> simp [h]
    · rcases step_awaitingAuthSession e with h | h <;> simp [h]
    · rcases step_authenticated e with h | h <;> simp [h]
    · simp [step_closed]
  · intro es
    cases es with
    | nil => exact ⟨0, 0, 0, 0, rfl, by simp⟩
    | cons e es =>
      rcases step_awaitingInitialize e with h | h
      · obtain ⟨b, c, d, hbcd⟩ := trace_awaitingAuthSession es
        exact ⟨0, b + 1, c, d, by simp [trace, h, hbcd, List.replicate_succ], by simp⟩
      · exact ⟨0, 0, 0, es.length + 1,
          by simp [trace, h, trace_closed, List.replicate_succ], by simp⟩
  · intro es s hs
    obtain ⟨c, d, hcd⟩ := trace_authenticated es
    rw [hcd, List.mem_append] at hs
    rcases hs with hs | hs
    · left
      rw [List.eq_of_mem_replicate hs]
      rfl
    · right
      exact List.eq_of_mem_replicate hs
  · intro es s hs
    rw [trace_closed] at hs
    exact List.eq_of_mem_replicate hs

end Handshake

/-! ## Theorems: storage-id pool of `GroupMgr` -/

namespace GroupMgr

/-- The loop test holds exactly at the free indices. -/
theorem slotIsFree_iff (store : List (Option Group)) (i : Nat) :
    slotIsFree store i = true ↔ FreeIndex store i := by
  unfold slotIsFree FreeIndex
  by_cases h : i < store.length
  · have hge : ¬ store.length ≤ i := by omega
    simp [h, hge, List.getD_eq_getElem?_getD, List.getElem?_eq_getElem h]
  · have hge : store.length ≤ i := by omega
    simp [h, hge]

/-- The loop leaves `NextGroupDbStoreId` unchanged or sets it to an index it
visited, which is below `0xFFFFFFFF`. -/
theorem searchLoop_range (store : List (Option Group)) (next : Nat) :
    ∀ fuel i, searchLoop store next fuel i = next ∨
      (i ≤ searchLoop store next fuel i ∧ searchLoop store next fuel i < UINT32_MAX) := by
  intro fuel
  induction fuel with
  | zero => intro i; simp [searchLoop]
  | succ n ih =>
    intro i
    simp only [searchLoop]
    split
    · split
      · right; exact ⟨le_refl _, by assumption⟩
      · rcases ih (i + 1) with h | h
        · left; exact h
        · right; exact ⟨by omega, h.2⟩
    · left; rfl

/-- When some index from `i` on and below `0xFFFFFFFF` passes the loop test, the
loop started at `i` with its full iteration count stops at the smallest one. -/
theorem searchLoop_found (store : List (Option Group)) (next : Nat) :
    ∀ fuel i, UINT32_MAX - i ≤ fuel → ∀ j, i ≤ j → j < UINT32_MAX →
      slotIsFree store j = true →
      i ≤ searchLoop store next fuel i ∧ searchLoop store next fuel i ≤ j ∧
      slotIsFree store (searchLoop store next fuel i) = true ∧
      ∀ k, i ≤ k → k < searchLoop store next fuel i → slotIsFree store k = false := by
  intro fuel
  induction fuel with
  | zero =>
    intro i hf j hij hj _
    omega
  | succ n ih =>
    intro i hf j hij hj hfree
    have hi : i < UINT32_MAX := by omega
    simp only [searchLoop, hi, if_true]
    by_cases hfi : slotIsFree store i = true
    · rw [if_pos hfi]
      exact ⟨le_refl _, hij, hfi, fun k h1 h2 => by omega⟩
    · rw [if_neg hfi]
      have hne : i ≠ j := by
        intro h
        rw [h] at hfi
        exact hfi hfree
      obtain ⟨h1, h2, h3, h4⟩ := ih (i + 1) (by omega) j (by omega) hj hfree
      refine ⟨by omega, h2, h3, ?_⟩
      intro k hk1 hk2
      by_cases hki : k = i
      · rw [hki]
        simpa using hfi
      · exact h4 k (by omega) hk2

/-- C9: `GenerateNewGroupDbStoreId` returns the value `NextGroupDbStoreId` had on
entry and leaves `GroupDbStore` (and `NextGroupId`) unchanged; whenever some
index `i` with `n < i < 0xFFFFFFFF` is free, `NextGroupDbStoreId` ends as the
smallest free index above `n`; and on a freshly constructed manager the first
call returns 1 and leaves `NextGroupDbStoreId = 2`. -/
theorem GenerateNewGroupDbStoreId_returns_entry_value_and_finds_smallest_free (m : State) :
    (GenerateNewGroupDbStoreId m).1 = m.NextGroupDbStoreId ∧
    (GenerateNewGroupDbStoreId m).2.GroupDbStore = m.GroupDbStore ∧
    (GenerateNewGroupDbStoreId m).2.NextGroupId = m.NextGroupId ∧
    (∀ i, m.NextGroupDbStoreId < i → i < UINT32_MAX → FreeIndex m.GroupDbStore i →
      m.NextGroupDbStoreId < (GenerateNewGroupDbStoreId m).2.NextGroupDbStoreId ∧
      (GenerateNewGroupDbStoreId m).2.NextGroupDbStoreId ≤ i ∧
      FreeIndex m.GroupDbStore (GenerateNewGroupDbStoreId m).2.NextGroupDbStoreId ∧
      ∀ k, m.NextGroupDbStoreId < k →
        k < (GenerateNewGroupDbStoreId m).2.NextGroupDbStoreId →
        ¬ FreeIndex m.GroupDbStore k) ∧
    GenerateNewGroupDbStoreId new = (1, { new with NextGroupDbStoreId := 2 }) := by
  refine ⟨?_, ?_, ?_, ?_, by decide⟩
  · simp only [GenerateNewGroupDbStoreId]
    split <;> rfl
  · simp only [GenerateNewGroupDbStoreId]
    split <;> rfl
  · simp only [GenerateNewGroupDbStoreId]
    split <;> rfl
  · intro i hlo hhi hfree
    have hU : UINT32_MAX = 4294967295 := rfl
    have hstart : (m.NextGroupDbStoreId + 1) % 2 ^ 32 = m.NextGroupDbStoreId + 1 := by
      apply Nat.mod_eq_of_lt
      norm_num
      omega
    have hnext : (GenerateNewGroupDbStoreId m).2.NextGroupDbStoreId =
        searchLoop m.GroupDbStore (m.NextGroupDbStoreId + 1)
          (UINT32_MAX - (m.NextGroupDbStoreId + 1)) (m.NextGroupDbStoreId + 1) := by
      simp only [GenerateNewGroupDbStoreId, hstart]
      split <;> rfl
    obtain ⟨h1, h2, h3, h4⟩ := searchLoop_found m.GroupDbStore (m.NextGroupDbStoreId + 1)
      (UINT32_MAX - (m.NextGroupDbStoreId + 1)) (m.NextGroupDbStoreId + 1) (le_refl _) i
      (by omega) hhi ((slotIsFree_iff _ _).2 hfree)
    rw [hnext]
    refine ⟨by omega, h2, (slotIsFree_iff _ _).1 h3, ?_⟩
    intro k hk1 hk2 hk
    have := h4 k (by omega) hk2
    rw [(slotIsFree_iff _ _).2 hk] at this
    exact Bool.noConfusion this

/-- Witness for C9: a manager holding groups at ids 1 and 2 with id 3 free; the
call returns 1 and leaves `NextGroupDbStoreId = 3`. -/
theorem GenerateNewGroupDbStoreId_witness :
    1 < (GenerateNewGroupDbStoreId
          { new with GroupDbStore := [none, some ⟨10, 1⟩, some ⟨11, 2⟩, none, some ⟨12, 4⟩] }
        ).2.NextGroupDbStoreId ∧
    (GenerateNewGroupDbStoreId
          { new with GroupDbStore := [none, some ⟨10, 1⟩, some ⟨11, 2⟩, none, some ⟨12, 4⟩] }
        ).2.NextGroupDbStoreId ≤ 3 :=
  let h := (GenerateNewGroupDbStoreId_returns_entry_value_and_finds_smallest_free
    { new with GroupDbStore := [none, some ⟨10, 1⟩, some ⟨11, 2⟩, none, some ⟨12, 4⟩] }
    ).2.2.2.1 3 (by decide) (by decide) (Or.inr (by decide))
  ⟨h.1, h.2.1⟩

/-- C10 (the code at the claim's own example): the comparison
`newStorageId == NextGroupDbStoreId` is never true after the pre-increment, so
no call takes the overflow branch (`World::StopNow` is not called); with
`NextGroupDbStoreId = 0xFFFFFFFE` on entry no index `i` with
`0xFFFFFFFE < i < 0xFFFFFFFF` exists, the call returns `0xFFFFFFFE`, leaves
`NextGroupDbStoreId = 0xFFFFFFFF` and does not stop the server. -/
theorem overflow_branch_is_never_taken :
    (∀ m : State, (GenerateNewGroupDbStoreId m).2.stopNow = m.stopNow) ∧
    (∀ i, ¬ (0xFFFFFFFE < i ∧ i < UINT32_MAX)) ∧
    GenerateNewGroupDbStoreId { new with NextGroupDbStoreId := 0xFFFFFFFE }
      = (0xFFFFFFFE, { new with NextGroupDbStoreId := 0xFFFFFFFF, stopNow := false }) := by
  refine ⟨?_, ?_, by decide⟩
  · intro m
    have hU : UINT32_MAX = 4294967295 := rfl
    have hlt : (m.NextGroupDbStoreId + 1) % 2 ^ 32 < 4294967296 :=
      Nat.mod_lt _ (by norm_num)
    have hcase : m.NextGroupDbStoreId < 4294967295 →
        (m.NextGroupDbStoreId + 1) % 2 ^ 32 = m.NextGroupDbStoreId + 1 := by
      intro h
      apply Nat.mod_eq_of_lt
      norm_num
      omega
    have hwrap : m.NextGroupDbStoreId = 4294967295 →
        (m.NextGroupDbStoreId + 1) % 2 ^ 32 = 0 := by
      intro h
      rw [h]
      norm_num
    have hne : m.NextGroupDbStoreId ≠
        searchLoop m.GroupDbStore ((m.NextGroupDbStoreId + 1) % 2 ^ 32)
          (UINT32_MAX - (m.NextGroupDbStoreId + 1) % 2 ^ 32)
          ((m.NextGroupDbStoreId + 1) % 2 ^ 32) := by
      rcases searchLoop_range m.GroupDbStore ((m.NextGroupDbStoreId + 1) % 2 ^ 32)
        (UINT32_MAX - (m.NextGroupDbStoreId + 1) % 2 ^ 32)
        ((m.NextGroupDbStoreId + 1) % 2 ^ 32) with h | h
      · rw [h]
        intro heq
        by_cases hc : m.NextGroupDbStoreId < 4294967295
        · have := hcase hc
          omega
        · by_cases hc2 : m.NextGroupDbStoreId = 4294967295
          · have := hwrap hc2
            omega
          · omega
      · intro heq
        by_cases hc : m.NextGroupDbStoreId < 4294967295
        · have := hcase hc
          omega
        · omega
    simp only [GenerateNewGroupDbStoreId, beq_iff_eq, hne, if_false]
  · intro i
    have hU : UINT32_MAX = 4294967295 := rfl
    omega

end GroupMgr

/-! ## Theorems: registering, freeing and looking up storage ids -/

namespace GroupMgr

/-- An index is free exactly when reading it with the `NULL` default gives `NULL`. -/
theorem freeIndex_iff_getD (store : List (Option Group)) (i : Nat) :
    FreeIndex store i ↔ store[i]?.getD none = none := by
  unfold FreeIndex
  by_cases h : i < store.length
  · rw [List.getElem?_eq_getElem h]
    simp only [Option.getD_some, Option.some.injEq]
    constructor
    · rintro (h1 | h1)
      · omega
      · exact h1
    · intro h1; exact Or.inr h1
  · have h' : store.length ≤ i := by omega
    rw [List.getElem?_eq_none h']
    simp [h']

/-- After `resize(n)` the vector has `n` entries. -/
theorem length_resize (store : List (Option Group)) (n : Nat) :
    (resize store n).length = n := by
  simp only [resize, List.length_append, List.length_take, List.length_replicate]
  omega

/-- Entries of a resized vector: the old entry where there was one, `NULL` in the
padding, nothing from `n` on. -/
theorem resize_getElem? (store : List (Option Group)) (n t : Nat) :
    (resize store n)[t]? = if t < n then some (store[t]?.getD none) else none := by
  by_cases ht : t < n
  · rw [if_pos ht]
    unfold resize
    by_cases hl : t < store.length
    · rw [List.getElem?_append_left (by simp; omega), List.getElem?_take_of_lt ht,
        List.getElem?_eq_getElem hl]
      rfl
    · have hl' : store.length ≤ t := by omega
      rw [List.getElem?_append_right (by simp; omega), List.getElem?_eq_none hl']
      rw [List.getElem?_replicate]
      simp only [List.length_take, Option.getD_none]
      rw [if_pos]
      omega
  · rw [if_neg ht]
    apply List.getElem?_eq_none
    rw [length_resize]
    omega


/-- Reading inside a vector gives its entry, reading outside gives nothing. -/
theorem getElem?_eq_some_getD_of_lt (store : List (Option Group)) (t n : Nat)
    (h : n = store.length) :
    store[t]? = if t < n then some (store[t]?.getD none) else none := by
  subst h
  by_cases ht : t < store.length
  · rw [if_pos ht, List.getElem?_eq_getElem ht]
    rfl
  · rw [if_neg ht]
    exact List.getElem?_eq_none (by omega)

/-- For a storage id below `0xFFFFFFFF` the vector is larger than the id after the
conditional resize, whatever its size was. -/
theorem storeAfterConditionalResize_in_bounds (store : List (Option Group)) (s : Nat)
    (hs : s < 0xFFFFFFFF) : s < (storeAfterConditionalResize store s).length := by
  unfold storeAfterConditionalResize
  have h1 : (s + 1) % 2 ^ 32 = s + 1 := Nat.mod_eq_of_lt (by norm_num; omega)
  split
  · rw [length_resize, h1]
    omega
  · have := Nat.mod_le store.length (2 ^ 32)
    omega

/-- For a storage id below `0xFFFFFFFF` and a vector of fewer than `2 ^ 32` entries
the conditional resize only pads the vector with `NULL` up to `storageId + 1`. -/
theorem storeAfterConditionalResize_spec (store : List (Option Group)) (s : Nat)
    (hs : s < 0xFFFFFFFF) (hl : store.length < 2 ^ 32) :
    (storeAfterConditionalResize store s).length = max store.length (s + 1) ∧
    ∀ t, (storeAfterConditionalResize store s)[t]? =
      if t < max store.length (s + 1) then some (store[t]?.getD none) else none := by
  unfold storeAfterConditionalResize
  have h1 : (s + 1) % 2 ^ 32 = s + 1 := Nat.mod_eq_of_lt (by norm_num; omega)
  have h2 : store.length % 2 ^ 32 = store.length := Nat.mod_eq_of_lt hl
  rw [h1, h2]
  by_cases hc : s ≥ store.length
  · rw [if_pos hc]
    have hm : max store.length (s + 1) = s + 1 := by omega
    rw [hm]
    exact ⟨length_resize _ _, fun t => resize_getElem? _ _ _⟩
  · rw [if_neg hc]
    have hm : max store.length (s + 1) = store.length := by omega
    rw [hm]
    exact ⟨rfl, fun t => getElem?_eq_some_getD_of_lt store t _ rfl⟩

/-- Effect of `RegisterGroupDbStoreId` for a storage id below `0xFFFFFFFF` on a
vector of fewer than `2 ^ 32` entries: only entry `s` changes, to `g`. -/
theorem RegisterGroupDbStoreId_spec (m : State) (s : Nat) (g : Option Group)
    (hs : s < 0xFFFFFFFF) (hl : m.GroupDbStore.length < 2 ^ 32) :
    ∃ m1, RegisterGroupDbStoreId m s g = some m1 ∧
      m1.NextGroupDbStoreId = m.NextGroupDbStoreId ∧
      m1.NextGroupId = m.NextGroupId ∧ m1.stopNow = m.stopNow ∧
      m1.GroupDbStore.length = max m.GroupDbStore.length (s + 1) ∧
      ∀ t, m1.GroupDbStore[t]?.getD none = if t = s then g else m.GroupDbStore[t]?.getD none := by
  obtain ⟨hlen, hget⟩ := storeAfterConditionalResize_spec m.GroupDbStore s hs hl
  have hin := storeAfterConditionalResize_in_bounds m.GroupDbStore s hs
  refine ⟨{ m with GroupDbStore := (storeAfterConditionalResize m.GroupDbStore s).set s g },
    by simp only [RegisterGroupDbStoreId, hin, if_true], rfl, rfl, rfl, ?_, ?_⟩
  · simp only [List.length_set, hlen]
  · intro t
    simp only [List.getElem?_set]
    by_cases hts : t = s
    · subst hts
      simp [hin]
    · have : ¬ s = t := fun h => hts h.symm
      rw [if_neg this, if_neg hts, hget t]
      split
      · rfl
      · rename_i hlt
        rw [List.getElem?_eq_none (by omega)]


/-- Effect of `FreeGroupDbStoreId` for a group whose storage id is inside the
vector. -/
theorem FreeGroupDbStoreId_spec (m : State) (g : Group)
    (hs : g.dbStoreId < m.GroupDbStore.length) :
    ∃ m1, FreeGroupDbStoreId m g = some m1 ∧
      m1.NextGroupDbStoreId = min m.NextGroupDbStoreId g.dbStoreId ∧
      m1.NextGroupId = m.NextGroupId ∧ m1.stopNow = m.stopNow ∧
      m1.GroupDbStore.length = m.GroupDbStore.length ∧
      ∀ t, m1.GroupDbStore[t]? =
        if t = g.dbStoreId then some none else m.GroupDbStore[t]? := by
  refine ⟨{ m with
      NextGroupDbStoreId :=
        if g.dbStoreId < m.NextGroupDbStoreId then g.dbStoreId else m.NextGroupDbStoreId,
      GroupDbStore := m.GroupDbStore.set g.dbStoreId none },
    by simp only [FreeGroupDbStoreId, hs, if_true], ?_, rfl, rfl, ?_, ?_⟩
  · show (if g.dbStoreId < m.NextGroupDbStoreId then g.dbStoreId else m.NextGroupDbStoreId) = _
    split <;> omega
  · simp only [List.length_set]
  · intro t
    simp only [List.getElem?_set]
    by_cases hts : t = g.dbStoreId
    · subst hts
      simp [hs]
    · have : ¬ g.dbStoreId = t := fun h => hts h.symm
      rw [if_neg this, if_neg hts]

/-- `GenerateNewGroupDbStoreId` returns the entry value of `NextGroupDbStoreId`
and does not touch the vector. -/
theorem GenerateNewGroupDbStoreId_next (m : State) :
    (GenerateNewGroupDbStoreId m).1 = m.NextGroupDbStoreId ∧
    (GenerateNewGroupDbStoreId m).2.GroupDbStore = m.GroupDbStore := by
  constructor <;> (simp only [GenerateNewGroupDbStoreId]; split <;> rfl)


/-- When a free index lies above the entry value and below `0xFFFFFFFF`,
`GenerateNewGroupDbStoreId` leaves `NextGroupDbStoreId` at the smallest one. -/
theorem GenerateNewGroupDbStoreId_finds (m : State) (i : Nat)
    (hlo : m.NextGroupDbStoreId < i) (hhi : i < UINT32_MAX)
    (hfree : FreeIndex m.GroupDbStore i) :
    m.NextGroupDbStoreId < (GenerateNewGroupDbStoreId m).2.NextGroupDbStoreId ∧
    (GenerateNewGroupDbStoreId m).2.NextGroupDbStoreId ≤ i ∧
    FreeIndex m.GroupDbStore (GenerateNewGroupDbStoreId m).2.NextGroupDbStoreId ∧
    ∀ k, m.NextGroupDbStoreId < k →
      k < (GenerateNewGroupDbStoreId m).2.NextGroupDbStoreId →
      ¬ FreeIndex m.GroupDbStore k := by
  have hU : UINT32_MAX = 4294967295 := rfl
  have hstart : (m.NextGroupDbStoreId + 1) % 2 ^ 32 = m.NextGroupDbStoreId + 1 := by
    apply Nat.mod_eq_of_lt
    norm_num
    omega
  have hnext : (GenerateNewGroupDbStoreId m).2.NextGroupDbStoreId =
      searchLoop m.GroupDbStore (m.NextGroupDbStoreId + 1)
        (UINT32_MAX - (m.NextGroupDbStoreId + 1)) (m.NextGroupDbStoreId + 1) := by
    simp only [GenerateNewGroupDbStoreId, hstart]
    split <;> rfl
  obtain ⟨h1, h2, h3, h4⟩ := searchLoop_found m.GroupDbStore (m.NextGroupDbStoreId + 1)
    (UINT32_MAX - (m.NextGroupDbStoreId + 1)) (m.NextGroupDbStoreId + 1) (le_refl _) i
    (by omega) hhi ((slotIsFree_iff _ _).2 hfree)
  rw [hnext]
  refine ⟨by omega, h2, (slotIsFree_iff _ _).1 h3, ?_⟩
  intro k hk1 hk2 hk
  have := h4 k (by omega) hk2
  rw [(slotIsFree_iff _ _).2 hk] at this
  exact Bool.noConfusion this

/-- A freshly constructed manager satisfies the invariant. -/
theorem poolInv_new : PoolInv new := by
  refine ⟨⟨by decide, Or.inl (by decide), ?_⟩, Or.inl (by decide), by decide⟩
  intro k h1 h2
  have : new.NextGroupDbStoreId = 1 := rfl
  omega

/-- Step (a) from a state satisfying the invariant is defined, keeps the
invariant and changes only the entry at the generated id. -/
theorem create_spec (m : State) (g : Group) (hinv : PoolInv m)
    (hid : m.NextGroupDbStoreId < 0xFFFFFFFE) :
    ∃ m1, applyOp m (.create g) = some m1 ∧ PoolInv m1 ∧
      m.NextGroupDbStoreId < m1.NextGroupDbStoreId ∧
      ∀ t, m1.GroupDbStore[t]?.getD none =
        if t = m.NextGroupDbStoreId then some g else m.GroupDbStore[t]?.getD none := by
  obtain ⟨⟨h1, hfreeN, hsmall⟩, hfree0, hlen⟩ := hinv
  obtain ⟨hret, hstore⟩ := GenerateNewGroupDbStoreId_next m
  have hU : UINT32_MAX = 4294967295 := rfl
  obtain ⟨f1, f2, f3, f4⟩ := GenerateNewGroupDbStoreId_finds m
    (max (m.NextGroupDbStoreId + 1) m.GroupDbStore.length) (by omega) (by omega)
    (Or.inl (by omega))
  obtain ⟨m1, hreg, r1, r2, r3, r4, r5⟩ := RegisterGroupDbStoreId_spec
    (GenerateNewGroupDbStoreId m).2 m.NextGroupDbStoreId (some g) (by omega)
    (by rw [hstore]; norm_num; omega)
  rw [hstore] at r4 r5
  have hfree_iff : ∀ k, FreeIndex m1.GroupDbStore k ↔
      FreeIndex m.GroupDbStore k ∧ k ≠ m.NextGroupDbStoreId := by
    intro k
    rw [freeIndex_iff_getD, freeIndex_iff_getD, r5 k]
    by_cases hk : k = m.NextGroupDbStoreId
    · simp [hk]
    · simp [hk]
  refine ⟨m1, ?_, ⟨⟨?_, ?_, ?_⟩, ?_, ?_⟩, ?_, r5⟩
  · simp only [applyOp, hret]
    rw [if_pos hid]
    exact hreg
  · rw [r1]; omega
  · rw [r1, hfree_iff]
    exact ⟨f3, by omega⟩
  · intro k hk1 hk2
    rw [r1] at hk2
    rw [hfree_iff]
    rintro ⟨hk, hne⟩
    by_cases hlt : k < m.NextGroupDbStoreId
    · exact hsmall k hk1 hlt hk
    · exact f4 k (by omega) hk2 hk
  · rw [hfree_iff]
    exact ⟨hfree0, by omega⟩
  · rw [r4]; omega
  · rw [r1]; exact f1

/-- Step (b) from a state satisfying the invariant is defined and keeps the
invariant. -/
theorem free_spec (m : State) (g : Group) (hinv : PoolInv m)
    (hreg : m.GroupDbStore[g.dbStoreId]? = some (some g)) :
    ∃ m1, applyOp m (.free g) = some m1 ∧ PoolInv m1 := by
  obtain ⟨⟨h1, hfreeN, hsmall⟩, hfree0, hlen⟩ := hinv
  have hs : g.dbStoreId < m.GroupDbStore.length := by
    by_contra hc
    rw [List.getElem?_eq_none (by omega)] at hreg
    exact Option.noConfusion hreg
  have hocc : ¬ FreeIndex m.GroupDbStore g.dbStoreId := by
    rw [freeIndex_iff_getD, hreg]
    simp
  have hne0 : g.dbStoreId ≠ 0 := fun h => hocc (h ▸ hfree0)
  have hneN : g.dbStoreId ≠ m.NextGroupDbStoreId := fun h => hocc (h ▸ hfreeN)
  obtain ⟨m1, hfree, r1, r2, r3, r4, r5⟩ := FreeGroupDbStoreId_spec m g hs
  have hfree_iff : ∀ k, FreeIndex m1.GroupDbStore k ↔
      FreeIndex m.GroupDbStore k ∨ k = g.dbStoreId := by
    intro k
    rw [freeIndex_iff_getD, freeIndex_iff_getD, r5 k]
    by_cases hk : k = g.dbStoreId
    · simp [hk]
    · simp [hk]
  refine ⟨m1, ?_, ⟨⟨?_, ?_, ?_⟩, ?_, ?_⟩⟩
  · simp only [applyOp]
    rw [if_pos hreg]
    exact hfree
  · rw [r1]; omega
  · rw [r1, hfree_iff]
    by_cases hlt : g.dbStoreId < m.NextGroupDbStoreId
    · right; omega
    · left
      have : min m.NextGroupDbStoreId g.dbStoreId = m.NextGroupDbStoreId := by omega
      rw [this]; exact hfreeN
  · intro k hk1 hk2
    rw [r1] at hk2
    rw [hfree_iff]
    rintro (hk | hk)
    · exact hsmall k hk1 (by omega) hk
    · omega
  · rw [hfree_iff]
    exact Or.inl hfree0
  · rw [r4]; exact hlen

/-- Every step keeps the invariant. -/
theorem poolInv_applyOp (m m1 : State) (op : Op) (hinv : PoolInv m)
    (h : applyOp m op = some m1) : PoolInv m1 := by
  cases op with
  | create g =>
    have hid : m.NextGroupDbStoreId < 0xFFFFFFFE := by
      by_contra hc
      simp only [applyOp, (GenerateNewGroupDbStoreId_next m).1, if_neg hc] at h
      exact Option.noConfusion h
    obtain ⟨m2, h2, hinv2, _⟩ := create_spec m g hinv hid
    rw [h] at h2
    cases h2
    exact hinv2
  | free g =>
    have hreg : m.GroupDbStore[g.dbStoreId]? = some (some g) := by
      by_contra hc
      simp only [applyOp, if_neg hc] at h
      exact Option.noConfusion h
    obtain ⟨m2, h2, hinv2⟩ := free_spec m g hinv hreg
    rw [h] at h2
    cases h2
    exact hinv2

/-- Every run keeps the invariant. -/
theorem poolInv_run (ops : List Op) : ∀ (m m1 : State), PoolInv m →
    run m ops = some m1 → PoolInv m1 := by
  induction ops with
  | nil =>
    intro m m1 hinv h
    simp only [run, Option.some.injEq] at h
    exact h ▸ hinv
  | cons op ops ih =>
    intro m m1 hinv h
    simp only [run] at h
    cases hop : applyOp m op with
    | none => rw [hop] at h; exact Option.noConfusion h
    | some m2 =>
      rw [hop] at h
      exact ih m2 m1 (poolInv_applyOp m m2 op hinv hop) h

/-- A lookup is always defined and returns the entry of the vector, `NULL`
outside it. -/
theorem GetGroupByDbStoreId_eq (m : State) (t : Nat) :
    GetGroupByDbStoreId m t = some (m.GroupDbStore[t]?.getD none) := by
  unfold GetGroupByDbStoreId
  by_cases h : t < m.GroupDbStore.length
  · rw [if_pos h, List.getElem?_eq_getElem h]
    rfl
  · rw [if_neg h, List.getElem?_eq_none (by omega)]
    rfl

/-- An entry read with the `NULL` default is a group exactly when the vector
holds that group at the index. -/
theorem getD_eq_some_iff (store : List (Option Group)) (t : Nat) (g : Group) :
    store[t]?.getD none = some g ↔ store[t]? = some (some g) := by
  cases h : store[t]? with
  | none => simp
  | some v => simp

/-- C11: allocator invariant. In every state reached from a freshly constructed
manager by steps (a) `id = GenerateNewGroupDbStoreId(); RegisterGroupDbStoreId(id, g)`
with an id below `0xFFFFFFFE` and (b) `FreeGroupDbStoreId(g)` of a registered
group, `NextGroupDbStoreId` is the smallest index from 1 on that is free. Hence
no group is registered at the id `GenerateNewGroupDbStoreId` returns, and a step
(a) is defined, puts the new group at that id, and leaves every group registered
before at its own, different, index: two groups never share a storage id. -/
theorem allocator_invariant (ops : List Op) (m : State) (h : run new ops = some m) :
    NextIsSmallestFree m ∧
    GetGroupByDbStoreId m (GenerateNewGroupDbStoreId m).1 = some none ∧
    (∀ g' : Group, m.GroupDbStore[(GenerateNewGroupDbStoreId m).1]? ≠ some (some g')) ∧
    (∀ g : Group, (GenerateNewGroupDbStoreId m).1 < 0xFFFFFFFE →
      ∃ m1, applyOp m (.create g) = some m1 ∧
        m1.GroupDbStore[(GenerateNewGroupDbStoreId m).1]? = some (some g) ∧
        ∀ (j : Nat) (g' : Group), m.GroupDbStore[j]? = some (some g') →
          j ≠ (GenerateNewGroupDbStoreId m).1 ∧ m1.GroupDbStore[j]? = some (some g')) := by
  have hinv : PoolInv m := poolInv_run ops new m poolInv_new h
  have hret := (GenerateNewGroupDbStoreId_next m).1
  have hfreeN : FreeIndex m.GroupDbStore m.NextGroupDbStoreId := hinv.1.2.1
  have hnone : m.GroupDbStore[m.NextGroupDbStoreId]?.getD none = none :=
    (freeIndex_iff_getD _ _).1 hfreeN
  rw [hret]
  refine ⟨hinv.1, ?_, ?_, ?_⟩
  · rw [GetGroupByDbStoreId_eq, hnone]
  · intro g' hg'
    rw [hg'] at hnone
    exact Option.noConfusion hnone
  · intro g hid
    obtain ⟨m1, hm1, _, _, hget⟩ := create_spec m g hinv hid
    refine ⟨m1, hm1, ?_, ?_⟩
    · rw [← getD_eq_some_iff, hget, if_pos rfl]
    · intro j g' hj
      have hne : j ≠ m.NextGroupDbStoreId := by
        intro hjN
        rw [hjN] at hj
        rw [hj] at hnone
        exact Option.noConfusion hnone
      refine ⟨hne, ?_⟩
      rw [← getD_eq_some_iff, hget, if_neg hne, getD_eq_some_iff]
      exact hj

/-- Witness for C11: three groups are created and the first one is freed; the
smallest free index from 1 on is then 1. -/
theorem allocator_invariant_witness :
    NextIsSmallestFree
      { new with GroupDbStore := [none, none, some ⟨11, 2⟩, some ⟨12, 3⟩],
                 NextGroupDbStoreId := 1 } :=
  (allocator_invariant [.create ⟨10, 1⟩, .create ⟨11, 2⟩, .create ⟨12, 3⟩, .free ⟨10, 1⟩]
    { new with GroupDbStore := [none, none, some ⟨11, 2⟩, some ⟨12, 3⟩],
               NextGroupDbStoreId := 1 } (by decide)).1

/-- C12: register and look up. For every storage id `s < 0xFFFFFFFF`, every group
pointer `g` and every manager whose vector has fewer than `2 ^ 32` entries,
`RegisterGroupDbStoreId(s, g)` is defined and afterwards `GetGroupByDbStoreId(s)`
returns `g`, `GetGroupByDbStoreId(t)` is unchanged for every `t ≠ s` that was in
range, every other index from the old size on reads as `NULL`,
`NextGroupDbStoreId` is unchanged, and the vector has `max(size, s + 1)` entries,
again fewer than `2 ^ 32`. For every state, `GetGroupByDbStoreId(t)` is defined and
`NULL` whenever `t >= GroupDbStore.size()`. -/
theorem register_then_lookup (m : State) (s : Nat) (g : Option Group)
    (hs : s < 0xFFFFFFFF) (hl : m.GroupDbStore.length < 2 ^ 32) :
    (∃ m1, RegisterGroupDbStoreId m s g = some m1 ∧
      GetGroupByDbStoreId m1 s = some g ∧
      (∀ t, t ≠ s → t < m.GroupDbStore.length →
        GetGroupByDbStoreId m1 t = GetGroupByDbStoreId m t) ∧
      (∀ t, t ≠ s → m.GroupDbStore.length ≤ t → GetGroupByDbStoreId m1 t = some none) ∧
      m1.NextGroupDbStoreId = m.NextGroupDbStoreId ∧
      m1.GroupDbStore.length = max m.GroupDbStore.length (s + 1) ∧
      m1.GroupDbStore.length < 2 ^ 32) ∧
    (∀ (m0 : State) (t : Nat), m0.GroupDbStore.length ≤ t →
      GetGroupByDbStoreId m0 t = some none) := by
  constructor
  · obtain ⟨m1, hreg, r1, _, _, r4, r5⟩ := RegisterGroupDbStoreId_spec m s g hs hl
    refine ⟨m1, hreg, ?_, ?_, ?_, r1, r4, ?_⟩
    · rw [GetGroupByDbStoreId_eq, r5, if_pos rfl]
    · intro t hts _
      rw [GetGroupByDbStoreId_eq, GetGroupByDbStoreId_eq, r5, if_neg hts]
    · intro t hts hlt
      rw [GetGroupByDbStoreId_eq, r5, if_neg hts, List.getElem?_eq_none hlt]
      rfl
    · rw [r4]
      have : (2 : Nat) ^ 32 = 4294967296 := by norm_num
      omega
  · intro m0 t ht
    simp only [GetGroupByDbStoreId, if_neg (Nat.not_lt.2 ht)]

/-- Witness for C12: group 7 is registered at id 3 of a fresh manager. -/
theorem register_then_lookup_witness :
    ∃ m1, RegisterGroupDbStoreId new 3 (some ⟨7, 3⟩) = some m1 ∧
      GetGroupByDbStoreId m1 3 = some (some ⟨7, 3⟩) :=
  let ⟨m1, h1, h2, _⟩ := (register_then_lookup new 3 (some ⟨7, 3⟩) (by decide) (by decide)).1
  ⟨m1, h1, h2⟩

/-- C13 (the code at `storageId = 0xFFFFFFFF`): for every storage id below
`0xFFFFFFFF` the vector is larger than the id after the conditional resize, for
every vector. At `0xFFFFFFFF` the sum `storageId + 1` wraps to zero: the test
`storageId >= uint32(size)` holds for every vector, `resize(0)` empties it, and
the assignment `GroupDbStore[storageId] = group` is outside the vector. -/
theorem register_at_0xFFFFFFFF_writes_out_of_bounds :
    (∀ (store : List (Option Group)) (s : Nat), s < 0xFFFFFFFF →
      s < (storeAfterConditionalResize store s).length) ∧
    (∀ store : List (Option Group),
      (storeAfterConditionalResize store 0xFFFFFFFF).length = 0) ∧
    (∀ (m : State) (g : Option Group), RegisterGroupDbStoreId m 0xFFFFFFFF g = none) ∧
    storeAfterConditionalResize [none, some ⟨10, 1⟩] 0xFFFFFFFF = [] ∧
    RegisterGroupDbStoreId { new with GroupDbStore := [none, some ⟨10, 1⟩] } 0xFFFFFFFF
      (some ⟨11, 0xFFFFFFFF⟩) = none := by
  have hlen : ∀ store : List (Option Group),
      (storeAfterConditionalResize store 0xFFFFFFFF).length = 0 := by
    intro store
    have h1 : store.length % 2 ^ 32 < 2 ^ 32 := Nat.mod_lt _ (by norm_num)
    have h2 : (0xFFFFFFFF + 1) % 2 ^ 32 = 0 := by norm_num
    have h3 : (2 : Nat) ^ 32 = 4294967296 := by norm_num
    unfold storeAfterConditionalResize
    rw [if_pos (by omega), h2, length_resize]
  refine ⟨storeAfterConditionalResize_in_bounds, hlen, ?_, by decide, by decide⟩
  intro m g
  simp only [RegisterGroupDbStoreId, hlen]
  rfl

/-- C14: reuse of a freed storage id. For every group whose storage id `s` is
inside the vector, `FreeGroupDbStoreId` is defined, sets entry `s` to `NULL`,
leaves every other entry and the size unchanged and sets `NextGroupDbStoreId` to
`min(NextGroupDbStoreId, s)`; afterwards `GetGroupByDbStoreId(s)` is `NULL`; when
`s` was below `NextGroupDbStoreId` the next `GenerateNewGroupDbStoreId` returns
`s`, and when `s` was above it the next generated id is the one that would have
been generated without the free. -/
theorem free_then_reuse (m : State) (g : Group)
    (hs : g.dbStoreId < m.GroupDbStore.length) :
    ∃ m1, FreeGroupDbStoreId m g = some m1 ∧
      m1.GroupDbStore[g.dbStoreId]? = some none ∧
      (∀ t, t ≠ g.dbStoreId → m1.GroupDbStore[t]? = m.GroupDbStore[t]?) ∧
      m1.GroupDbStore.length = m.GroupDbStore.length ∧
      m1.NextGroupDbStoreId = min m.NextGroupDbStoreId g.dbStoreId ∧
      GetGroupByDbStoreId m1 g.dbStoreId = some none ∧
      (∀ t, t ≠ g.dbStoreId → GetGroupByDbStoreId m1 t = GetGroupByDbStoreId m t) ∧
      (g.dbStoreId < m.NextGroupDbStoreId →
        (GenerateNewGroupDbStoreId m1).1 = g.dbStoreId) ∧
      (m.NextGroupDbStoreId < g.dbStoreId →
        (GenerateNewGroupDbStoreId m1).1 = (GenerateNewGroupDbStoreId m).1) := by
  obtain ⟨m1, hfree, r1, _, _, r4, r5⟩ := FreeGroupDbStoreId_spec m g hs
  refine ⟨m1, hfree, ?_, ?_, r4, r1, ?_, ?_, ?_, ?_⟩
  · rw [r5, if_pos rfl]
  · intro t ht
    rw [r5, if_neg ht]
  · rw [GetGroupByDbStoreId_eq, r5, if_pos rfl]
    rfl
  · intro t ht
    rw [GetGroupByDbStoreId_eq, GetGroupByDbStoreId_eq, r5, if_neg ht]
  · intro hlt
    rw [(GenerateNewGroupDbStoreId_next m1).1, r1]
    omega
  · intro hlt
    rw [(GenerateNewGroupDbStoreId_next m1).1, (GenerateNewGroupDbStoreId_next m).1, r1]
    omega

/-- Witness for C14: groups are registered at ids 1, 2 and 3 and the next id is
4; freeing the group at id 2 makes 2 the next generated id. -/
theorem free_then_reuse_witness :
    ∃ m1,
      FreeGroupDbStoreId
        { new with GroupDbStore := [none, some ⟨10, 1⟩, some ⟨11, 2⟩, some ⟨12, 3⟩],
                   NextGroupDbStoreId := 4 } ⟨11, 2⟩ = some m1 ∧
      (GenerateNewGroupDbStoreId m1).1 = 2 :=
  let ⟨m1, h1, _, _, _, _, _, _, h8, _⟩ :=
    free_then_reuse
      { new with GroupDbStore := [none, some ⟨10, 1⟩, some ⟨11, 2⟩, some ⟨12, 3⟩],
                 NextGroupDbStoreId := 4 } ⟨11, 2⟩ (by decide)
  ⟨m1, h1, h8 (by decide)⟩

end GroupMgr

/-! ## Theorems: outbound queue -/

namespace OutboundQueue

/-- Along a run, the delivered batches followed by the queued messages in enqueue
order grow by exactly the pushed messages, in the order of the pushes. -/
theorem run_conserves (steps : List Step) : ∀ e : Execution,
    (run e steps).delivered.flatten ++ (run e steps).queue.nodes.reverse =
      e.delivered.flatten ++ e.queue.nodes.reverse ++ pushed steps := by
  induction steps with
  | nil => intro e; simp [run, pushed]
  | cons s ss ih =>
    intro e
    cases s with
    | push m =>
      rw [run, ih]
      simp [step, push, pushed]
    | drain =>
      rw [run, ih]
      simp [step, drain_all, pushed]

/-- Filtering by producer distributes over concatenation. -/
theorem ofProducer_append (p : Nat) (xs ys : List Message) :
    ofProducer p (xs ++ ys) = ofProducer p xs ++ ofProducer p ys := by
  simp [ofProducer]

/-- A drain empties the queue and adds the queued messages, in enqueue order, as
the last batch. -/
theorem run_append_drain (steps : List Step) (e : Execution) :
    (run e (steps ++ [.drain])).queue.nodes = [] ∧
    (run e (steps ++ [.drain])).delivered =
      (run e steps).delivered ++ [(run e steps).queue.nodes.reverse] := by
  induction steps generalizing e with
  | nil => simp [run, step, drain_all]
  | cons s ss ih => simpa [run] using ih (step e s)

/-- C7: outbound queue ordering and conservation. For every interleaving of
pushes and drains, given as the sequence of atomic steps: (1) the batches
delivered so far, followed by what is still queued in enqueue order, are exactly
the pushed messages in the order the pushes took effect; (2) in every batch a
drain returns, the messages of each producer are a contiguous run of that
producer's pushes, in its push order; (3) for each producer, its delivered
messages followed by its queued ones are its pushes, in order; (4) after one more
drain the queue is empty and the delivered messages are exactly the pushed ones,
so every message is delivered exactly as often as it was pushed; (5) when the
steps interleave the sequences of N producer threads, each producer's delivered
contents after that drain are its own sequence. -/
theorem queue_order_and_conservation (steps : List Step) :
    ((run Execution.start steps).delivered.flatten ++
        (run Execution.start steps).queue.nodes.reverse = pushed steps) ∧
    (∀ (p : Nat) (batch : List Message), batch ∈ (run Execution.start steps).delivered →
      ∃ before after, ofProducer p (pushed steps) = before ++ ofProducer p batch ++ after) ∧
    (∀ p : Nat,
      ofProducer p (run Execution.start steps).delivered.flatten ++
        ofProducer p (run Execution.start steps).queue.nodes.reverse =
        ofProducer p (pushed steps)) ∧
    ((run Execution.start (steps ++ [.drain])).queue.nodes = [] ∧
      (run Execution.start (steps ++ [.drain])).delivered.flatten = pushed steps) ∧
    (∀ m : Message,
      (run Execution.start (steps ++ [.drain])).delivered.flatten.count m =
        (pushed steps).count m) ∧
    (∀ seqs : List (List Nat), Interleaves seqs steps → ∀ p, p < seqs.length →
      (ofProducer p (run Execution.start (steps ++ [.drain])).delivered.flatten).map
        (fun m => m.content) = seqs.getD p []) := by
  have hcons : (run Execution.start steps).delivered.flatten ++
      (run Execution.start steps).queue.nodes.reverse = pushed steps := by
    have := run_conserves steps Execution.start
    simpa [Execution.start, Queue.empty] using this
  have hfinal : (run Execution.start (steps ++ [.drain])).delivered.flatten = pushed steps := by
    rw [(run_append_drain steps Execution.start).2, List.flatten_append]
    simpa using hcons
  refine ⟨hcons, ?_, ?_, ⟨(run_append_drain steps Execution.start).1, hfinal⟩, ?_, ?_⟩
  · intro p batch hb
    obtain ⟨s, t, hst⟩ := List.append_of_mem hb
    refine ⟨ofProducer p s.flatten,
      ofProducer p (t.flatten ++ (run Execution.start steps).queue.nodes.reverse), ?_⟩
    rw [← hcons, hst]
    simp [ofProducer_append]
  · intro p
    rw [← ofProducer_append, hcons]
  · intro m
    rw [hfinal]
  · intro seqs h p hp
    rw [hfinal]
    exact h.2 p hp

/-- Witness for C7: two producers push `[1, 2]` and `[3]`, interleaved with a
drain; after a final drain producer 0 has been delivered `[1, 2]`. -/
theorem queue_order_and_conservation_witness :
    (ofProducer 0 (run Execution.start
        ([.push ⟨0, 1⟩, .push ⟨1, 3⟩, .drain, .push ⟨0, 2⟩] ++ [.drain])).delivered.flatten).map
      (fun m => m.content) = [1, 2] :=
  (queue_order_and_conservation [.push ⟨0, 1⟩, .push ⟨1, 3⟩, .drain, .push ⟨0, 2⟩]).2.2.2.2.2
    [[1, 2], [3]] ⟨by decide, by decide⟩ 0 (by decide)

end OutboundQueue
